import Mathlib

/-!
Verification development for the BeachBook knowledge-graph chat front end.

The definitions below are a shallow embedding of the query-submission code in
`templates/journal.html` (the `submitQuery`, `updateAuditTrail` and
`displayQueries` functions of the inline script).  JavaScript strings are
modelled as `List Char`; the DOM regions the script mutates (`chatHistory`,
`cypherQueries`, `auditTrail`) are modelled as structured state, with each
`innerHTML +=` an append to a list of structured entries.  Wall-clock
timestamps (`new Date()`) are environment inputs and are not part of the
modelled entries; no claim refers to them.
-/

namespace BeachBook

/-- JavaScript strings, modelled as lists of characters. -/
abbrev Str := List Char

/-- Whitespace test used by `String.prototype.trim` (ASCII approximation). -/
def isWS (c : Char) : Bool := c.isWhitespace

/-- JS `s.trim()`: drop leading and trailing whitespace. -/
def jsTrim (l : Str) : Str :=
  ((l.dropWhile isWS).reverse.dropWhile isWS).reverse

/-- Find the first occurrence of `sep` in a string; returns the text before
the occurrence and the text after it.  `none` when `sep` does not occur
(mirrors `String.prototype.includes` / the first split boundary). -/
def findSep (sep : Str) : Str → Option (Str × Str)
  | [] => none
  | c :: rest =>
    if sep.isPrefixOf (c :: rest) then some ([], (c :: rest).drop sep.length)
    else
      match findSep sep rest with
      | none => none
      | some (pre, post) => some (c :: pre, post)

/-- The text up to the next occurrence of `sep` (or all of `l`).  Used to model
`line.split(sep)[1]`: the piece between the first and second occurrence. -/
def headPiece (sep : Str) (l : Str) : Str :=
  match findSep sep l with
  | none => l
  | some pr => pr.1

/-- JS `s.split('\n')`, as performed on the graph context (line 274). -/
def splitLines : Str → List Str
  | [] => [[]]
  | c :: rest =>
    if c = '\n' then [] :: splitLines rest
    else
      match splitLines rest with
      | [] => [[c]]
      | p :: ps => (c :: p) :: ps

/-- The separator string `'Found in:'` (line 275). -/
def foundInSep : Str := "Found in:".toList

/-- Lines 275-276: a line containing `'Found in:'` contributes
`line.split('Found in:')[1].trim()`; other lines contribute nothing. -/
def lineDoc (line : Str) : Option Str :=
  match findSep foundInSep line with
  | none => none
  | some pr => some (jsTrim (headPiece foundInSep pr.2))

/-- `filter((doc, index, self) => self.indexOf(doc) === index)` (line 277):
keep only the first occurrence of each element, preserving order. -/
def dedupeFirstAux {α : Type} [DecidableEq α] (seen : List α) : List α → List α
  | [] => []
  | x :: xs =>
    if x ∈ seen then dedupeFirstAux seen xs
    else x :: dedupeFirstAux (x :: seen) xs

/-- First-occurrence deduplication, preserving order (line 277). -/
def dedupeFirst {α : Type} [DecidableEq α] (l : List α) : List α :=
  dedupeFirstAux [] l

/-- Lines 274-277: the distinct document titles extracted from the graph
context, in order of first appearance. -/
def contextDocs (gc : Str) : List Str :=
  dedupeFirst ((splitLines gc).filterMap lineDoc)

/-- Worker for `jsReplaceAll` with a non-empty pattern: scan left to right,
replacing each non-overlapping occurrence of `pat` by `rep`.  A positive skip
count means the scanner is inside a just-matched occurrence whose remaining
characters must be consumed without being emitted. -/
def replaceGo (pat rep : Str) : Str → Nat → Str
  | [], _ => []
  | _ :: rest, k + 1 => replaceGo pat rep rest k
  | c :: rest, 0 =>
    if pat.isPrefixOf (c :: rest) then rep ++ replaceGo pat rep rest (pat.length - 1)
    else c :: replaceGo pat rep rest 0

/-- Insert `rep` after every character (continuation of the JS empty-regex
behaviour: `"ab".replace(new RegExp('', 'g'), r)` = `r + 'a' + r + 'b' + r`). -/
def interleave (rep : Str) : Str → Str
  | [] => []
  | c :: rest => c :: rep ++ interleave rep rest

/-- Line 281-282: `processedResponse.replace(new RegExp(escaped, 'g'), rep)`.
The JS escapes every regex metacharacter in the document title first, so the
regex matches the title literally; global replacement rewrites every
non-overlapping occurrence, left to right.  An empty pattern (possible when a
`'Found in:'` line has an empty trimmed tail) inserts `rep` at every position,
as the empty regex does. -/
def jsReplaceAll (s pat rep : Str) : Str :=
  if pat.isEmpty then rep ++ interleave rep s
  else replaceGo pat rep s 0

/-- The citation marker `[i]` interpolated at line 282. -/
def marker (i : Nat) : Str := '[' :: ((toString i).toList ++ [']'])

/-- Lines 280-284: `docs.forEach((doc, index) => { processedResponse =
processedResponse.replace(regex, `[index+1]`) })`, with markers numbered from
`i` (the top-level call uses `i = 1`, matching `index + 1`). -/
def applyCitationsFrom (i : Nat) : List Str → Str → Str
  | [], r => r
  | d :: ds, r => applyCitationsFrom (i + 1) ds (jsReplaceAll r d (marker i))

/-- The reference entries accumulated in `docRefs` (line 283): marker index
paired with the document title, numbered from `i`. -/
def citationListFrom (i : Nat) : List Str → List (Nat × Str)
  | [] => []
  | d :: ds => (i, d) :: citationListFrom (i + 1) ds

/-- Reference entries with markers numbered from 1 (`index + 1` at line 283). -/
def citationList (docs : List Str) : List (Nat × Str) :=
  citationListFrom 1 docs

/-- `semantic_data.focus` as rendered by the audit trail (lines 184-185). -/
structure SemanticFocus where
  main_noun : Option Str
  root_verb : Option Str
deriving DecidableEq

/-- The `semantic_data` object of the server response. -/
structure SemanticData where
  focus : Option SemanticFocus
deriving DecidableEq

/-- The `queries` object of `technical_details`. -/
structure Queries where
  graph_context : Option Str
  semantic_data : Option SemanticData
deriving DecidableEq

/-- The `technical_details` object of the server response. -/
structure TechnicalDetails where
  queries : Option Queries
deriving DecidableEq

/-- The parsed JSON body returned by `POST /query`. -/
structure ResponseData where
  response : Str
  error : Option Str
  technical_details : Option TechnicalDetails
deriving DecidableEq

/-- JS truthiness of an optional string: absent and empty strings are falsy. -/
def truthy : Option Str → Bool
  | none => false
  | some s => !s.isEmpty

/-- The optional chain `data.technical_details?.queries?.graph_context`. -/
def ResponseData.graphContext (d : ResponseData) : Option Str :=
  (d.technical_details.bind TechnicalDetails.queries).bind Queries.graph_context

/-- The optional chain `data.technical_details?.queries?.semantic_data`. -/
def ResponseData.semanticData (d : ResponseData) : Option SemanticData :=
  (d.technical_details.bind TechnicalDetails.queries).bind Queries.semantic_data

/-- Lines 268-285 of `submitQuery`: compute the processed response text and
the reference entries.  When `graph_context` is absent or empty (falsy), the
response is left untouched and no references are produced. -/
def processCitations (d : ResponseData) : Str × List (Nat × Str) :=
  if truthy d.graphContext then
    (applyCitationsFrom 1 (contextDocs (d.graphContext.getD [])) d.response,
     citationList (contextDocs (d.graphContext.getD [])))
  else (d.response, [])

/-- Character class `[^-\n]` of the audit-trail regex (line 163). -/
def notHyphenNL (c : Char) : Bool := !(c == '-') && !(c == '\n')

/-- The literal suffix `.txt` of the audit-trail regex (line 163). -/
def txtList : Str := ".txt".toList

/-- Backtracking step for the line-163 regex (a hyphen, a space, then the group `([^-\n]+\.txt)`): given the maximal run of
characters admitted by `[^-\n]`, the greedy engine matches the longest prefix
of the run that ends in `.txt` and has at least one character before it
(so the successful prefix length is at least 5). -/
def findTxtEnd (run : Str) : Option Nat :=
  (List.range (run.length + 1)).reverse.find?
    (fun i => decide (5 ≤ i ∧ txtList <:+ run.take i))

/-- Global scan of `graphContext.match(regex)` with the global line-163 regex followed by
`.map(d => d.slice(2))` (line 163): attempt a match at each position, emit the
captured group, and resume scanning right after the match.  `fuel` bounds the
recursion (every step consumes at least one character, so `length + 1` fuel
always suffices); a positive `skip` means the scanner is still inside the
just-matched text. -/
def auditScanF : Nat → Str → Nat → List Str
  | 0, _, _ => []
  | _ + 1, [], _ => []
  | fuel + 1, _ :: rest, k + 1 => auditScanF fuel rest k
  | fuel + 1, c :: rest, 0 =>
    match c, rest with
    | '-', ' ' :: rest2 =>
      (match findTxtEnd (rest2.takeWhile notHyphenNL) with
       | some i => (rest2.takeWhile notHyphenNL).take i :: auditScanF fuel rest2 i
       | none => auditScanF fuel rest 0)
    | _, _ => auditScanF fuel rest 0

/-- Line 163: the `Referenced Documents` titles of one audit entry, scraped
from the graph context with the global regex of line 163 (hyphen, space, group `([^-\n]+\.txt)`). -/
def auditDocsOf (gc : Str) : List Str :=
  auditScanF (gc.length + 1) gc 0

/-- One message of the `chatHistory` region. -/
inductive ChatMsg where
  | user (text : Str)
  | bot (text : Str) (refs : List (Nat × Str))
  | error (message : Str)
deriving DecidableEq

/-- One entry of the `auditTrail` region: a resource entry written by
`updateAuditTrail` (lines 157-194) or an error entry written by the catch
handler (lines 319-328). -/
inductive AuditEntry where
  | resource (query : Str) (docs : List Str) (semantic : Option SemanticData)
  | error (query : Str) (message : Str)
deriving DecidableEq

/-- Contents of the `cypherQueries` region as set by `displayQueries`
(lines 196-229); `empty` is the initial blank region. -/
inductive CypherDisplay where
  | empty
  | noQueries
  | content (graphContext : Option Str) (semanticData : Option SemanticData)
deriving DecidableEq

/-- The page state touched by `submitQuery`.  `requestsSent` records the query
bodies posted to `/query` (line 248), so that "never submitted" is provable. -/
structure UIState where
  inputValue : Str
  chatHistory : List ChatMsg
  cypherQueries : CypherDisplay
  auditTrail : List AuditEntry
  requestsSent : List Str
deriving DecidableEq

/-- The outcome of the `fetch('/query')` round trip as seen by the handlers:
a rejected fetch, a non-ok HTTP status (line 257), or a parsed JSON body. -/
inductive ServerResult where
  | fetchFailed (message : Str)
  | httpError (status : Nat)
  | ok (data : ResponseData)
deriving DecidableEq

/-- Lines 196-229, `displayQueries`: replace the `cypherQueries` region with
the graph-context and query-analysis blocks, or a `No queries generated.`
notice when `queries` is absent or both blocks are empty
(`queryContent || ...` at line 228). -/
def displayQueries (d : ResponseData) : CypherDisplay :=
  match d.technical_details.bind TechnicalDetails.queries with
  | none => CypherDisplay.noQueries
  | some qs =>
    if truthy qs.graph_context = false ∧ qs.semantic_data = none then
      CypherDisplay.noQueries
    else
      CypherDisplay.content
        (if truthy qs.graph_context then qs.graph_context else none)
        qs.semantic_data

/-- Lines 157-194, `updateAuditTrail`: append one resource entry (with the
regex-scraped document titles and the semantic focus) to the audit region. -/
def updateAuditTrail (queryText : Str) (d : ResponseData)
    (trail : List AuditEntry) : List AuditEntry :=
  trail ++ [AuditEntry.resource queryText (auditDocsOf (d.graphContext.getD []))
    d.semanticData]

/-- Lines 308-329, the catch handler: append an error message to the chat and
one error entry to the audit trail. -/
def errorPath (st : UIState) (q msg : Str) : UIState :=
  { st with
    chatHistory := st.chatHistory ++ [ChatMsg.error msg],
    auditTrail := st.auditTrail ++ [AuditEntry.error q msg] }

/-- Lines 231-330, `submitQuery`: trim the input (line 232) and return
unchanged when it is empty (line 233); otherwise clear the input, echo the
user message, post the query, and process the outcome.  A truthy `error`
field (line 263), a non-ok status (line 257) and a rejected fetch all flow
into the catch handler; otherwise the response is processed into the chat,
query display and audit trail (lines 268-301). -/
def submitQuery (st : UIState) (result : ServerResult) : UIState :=
  let q := jsTrim st.inputValue
  if q.isEmpty then st
  else
    let st1 : UIState :=
      { st with
        inputValue := [],
        chatHistory := st.chatHistory ++ [ChatMsg.user q],
        requestsSent := st.requestsSent ++ [q] }
    match result with
    | ServerResult.fetchFailed msg => errorPath st1 q msg
    | ServerResult.httpError status =>
        errorPath st1 q ("HTTP error! status: ".toList ++ (toString status).toList)
    | ServerResult.ok d =>
        if truthy d.error then errorPath st1 q (d.error.getD [])
        else
          { st1 with
            chatHistory := st1.chatHistory ++
              [ChatMsg.bot (processCitations d).1 (processCitations d).2],
            cypherQueries := displayQueries d,
            auditTrail := updateAuditTrail q d st1.auditTrail }

/-- A context fragment as specified in §3 of the design: a snippet tagged with
its originating document and a relevance score. -/
structure ContextFragment where
  documentTitle : Str
  snippet : Str
  score : Nat
deriving DecidableEq

/-- An answer record as specified in §3: answer text plus ordered citations. -/
structure AnswerRecord where
  text : Str
  citations : List (Nat × Str)
deriving DecidableEq

/-- The fixed answer used when no evidence is found (§4.4). -/
def insufficientInfoMessage : Str :=
  "I do not have sufficient information to answer this question.".toList

/-- Modelled from the spec: the Answer Synthesizer (`synthesize`) is a
back-end component whose implementation is not among the sources; only its
callers and rendering appear in `templates/journal.html`.  Per §4.4: an empty
context yields the fixed insufficient-information answer with no citations;
otherwise an external completion drafts prose and each document of a context
fragment actually mentioned by the draft receives the next unused marker in
first-use order, with literal title mentions replaced by the marker. -/
def synthesize (complete : Str → Str) (question : Str)
    (context : List ContextFragment) : AnswerRecord :=
  if context.isEmpty then
    { text := insufficientInfoMessage, citations := [] }
  else
    let draft := complete question
    let used := (dedupeFirst (context.map ContextFragment.documentTitle)).filter
      (fun t => decide (t <:+: draft))
    { text := applyCitationsFrom 1 used draft, citations := citationList used }

theorem within_cons_of {a l : Str} (c : Char) (h : a <:+: l) : a <:+: c :: l := by
  obtain ⟨s, t, hst⟩ := h
  exact ⟨c :: s, t, by simp [hst]⟩

theorem dedupeFirstAux_subset {α : Type} [DecidableEq α] (l : List α) :
    ∀ (seen : List α) (x : α), x ∈ dedupeFirstAux seen l → x ∈ l := by
  induction l with
  | nil => intro seen x hx; simp [dedupeFirstAux] at hx
  | cons a as ih =>
    intro seen x hx
    simp only [dedupeFirstAux] at hx
    by_cases ha : a ∈ seen
    · rw [if_pos ha] at hx
      exact List.mem_cons_of_mem a (ih seen x hx)
    · rw [if_neg ha] at hx
      rcases List.mem_cons.mp hx with rfl | hx
      · exact List.mem_cons_self x as
      · exact List.mem_cons_of_mem a (ih (a :: seen) x hx)

theorem dedupeFirstAux_nodup {α : Type} [DecidableEq α] (l : List α) :
    ∀ seen : List α,
      (∀ x ∈ dedupeFirstAux seen l, x ∉ seen) ∧ (dedupeFirstAux seen l).Nodup := by
  induction l with
  | nil => intro seen; simp [dedupeFirstAux]
  | cons a as ih =>
    intro seen
    by_cases ha : a ∈ seen
    · simpa only [dedupeFirstAux, if_pos ha] using ih seen
    · have h2 := ih (a :: seen)
      simp only [dedupeFirstAux, if_neg ha]
      constructor
      · intro x hx
        rcases List.mem_cons.mp hx with rfl | hx
        · exact ha
        · intro hxs
          exact h2.1 x hx (List.mem_cons_of_mem a hxs)
      · refine List.nodup_cons.mpr ⟨?_, h2.2⟩
        intro hmem
        exact h2.1 a hmem (List.mem_cons_self a seen)

theorem dedupeFirst_nodup {α : Type} [DecidableEq α] (l : List α) :
    (dedupeFirst l).Nodup :=
  (dedupeFirstAux_nodup l []).2

theorem findSep_parts (sep : Str) (l : Str) :
    ∀ pr, findSep sep l = some pr → pr.1 <+: l ∧ pr.2 <:+ l := by
  induction l with
  | nil => intro pr h; simp [findSep] at h
  | cons c rest ih =>
    intro pr h
    simp only [findSep] at h
    by_cases hp : sep.isPrefixOf (c :: rest)
    · rw [if_pos hp] at h
      injection h with h
      subst h
      exact ⟨⟨c :: rest, rfl⟩, List.drop_suffix _ _⟩
    · rw [if_neg hp] at h
      cases hf : findSep sep rest with
      | none => rw [hf] at h; cases h
      | some pr' =>
        rw [hf] at h
        injection h with h
        subst h
        obtain ⟨h1, h2⟩ := ih pr' hf
        constructor
        · obtain ⟨t, ht⟩ := h1
          exact ⟨t, by simp [ht]⟩
        · obtain ⟨t, ht⟩ := h2
          exact ⟨c :: t, by simp [ht]⟩

theorem headPiece_pre (sep l : Str) : headPiece sep l <+: l := by
  unfold headPiece
  cases hf : findSep sep l with
  | none => exact ⟨[], List.append_nil l⟩
  | some pr => exact (findSep_parts sep l pr hf).1

theorem jsTrim_within (l : Str) : jsTrim l <:+: l := by
  have h1 : l.dropWhile isWS <:+ l := List.dropWhile_suffix isWS
  obtain ⟨t, ht⟩ : (l.dropWhile isWS).reverse.dropWhile isWS <:+ (l.dropWhile isWS).reverse :=
    List.dropWhile_suffix isWS
  have h3 : jsTrim l <+: l.dropWhile isWS := by
    refine ⟨t.reverse, ?_⟩
    have hr := congrArg List.reverse ht
    simpa [jsTrim, List.reverse_append] using hr
  exact h3.isInfix.trans h1.isInfix

theorem splitLines_parts (l : Str) :
    ∃ p ps, splitLines l = p :: ps ∧ p <+: l ∧ ∀ q ∈ ps, q <:+: l := by
  induction l with
  | nil => exact ⟨[], [], rfl, ⟨[], rfl⟩, by simp⟩
  | cons c rest ih =>
    obtain ⟨p, ps, hsp, hp, hps⟩ := ih
    by_cases hc : c = '\n'
    · refine ⟨[], splitLines rest, by simp [splitLines, hc], ⟨c :: rest, rfl⟩, ?_⟩
      intro q hq
      rw [hsp] at hq
      rcases List.mem_cons.mp hq with rfl | hq
      · exact within_cons_of c hp.isInfix
      · exact within_cons_of c (hps q hq)
    · refine ⟨c :: p, ps, by simp only [splitLines, if_neg hc, hsp], ?_, ?_⟩
      · obtain ⟨t, ht⟩ := hp
        exact ⟨t, by simp [ht]⟩
      · intro q hq
        exact within_cons_of c (hps q hq)

theorem splitLines_within (l q : Str) (h : q ∈ splitLines l) : q <:+: l := by
  obtain ⟨p, ps, hsp, hp, hps⟩ := splitLines_parts l
  rw [hsp] at h
  rcases List.mem_cons.mp h with rfl | h
  · exact hp.isInfix
  · exact hps q h

theorem lineDoc_within (line t : Str) (h : lineDoc line = some t) : t <:+: line := by
  unfold lineDoc at h
  cases hf : findSep foundInSep line with
  | none => rw [hf] at h; cases h
  | some pr =>
    rw [hf] at h
    injection h with h
    subst h
    exact ((jsTrim_within (headPiece foundInSep pr.2)).trans
      (headPiece_pre foundInSep pr.2).isInfix).trans
      (findSep_parts foundInSep line pr hf).2.isInfix

theorem contextDocs_within (gc t : Str) (h : t ∈ contextDocs gc) : t <:+: gc := by
  unfold contextDocs dedupeFirst at h
  have h1 := dedupeFirstAux_subset _ [] t h
  obtain ⟨line, hline, hdoc⟩ := List.mem_filterMap.mp h1
  exact (lineDoc_within line t hdoc).trans (splitLines_within gc line hline)

theorem citationListFrom_map_fst (l : List Str) :
    ∀ i, (citationListFrom i l).map Prod.fst = List.range' i l.length := by
  induction l with
  | nil => intro i; rfl
  | cons d ds ih =>
    intro i
    simp only [citationListFrom, List.map_cons, List.length_cons, List.range'_succ, ih]

theorem citationListFrom_map_snd (l : List Str) :
    ∀ i, (citationListFrom i l).map Prod.snd = l := by
  induction l with
  | nil => intro i; rfl
  | cons d ds ih =>
    intro i
    simp only [citationListFrom, List.map_cons, ih]

theorem citationListFrom_snd_mem (l : List Str) :
    ∀ (i : Nat) (p : Nat × Str), p ∈ citationListFrom i l → p.2 ∈ l := by
  intro i p hp
  have : p.2 ∈ (citationListFrom i l).map Prod.snd := List.mem_map_of_mem Prod.snd hp
  rwa [citationListFrom_map_snd l i] at this

theorem citationListFrom_mem_of (l : List Str) :
    ∀ (i : Nat) (t : Str), t ∈ l → ∃ j, (j, t) ∈ citationListFrom i l := by
  induction l with
  | nil => intro i t ht; simp at ht
  | cons d ds ih =>
    intro i t ht
    rcases List.mem_cons.mp ht with rfl | ht
    · exact ⟨i, List.mem_cons_self _ _⟩
    · obtain ⟨j, hj⟩ := ih (i + 1) t ht
      exact ⟨j, List.mem_cons_of_mem _ hj⟩

theorem replaceGo_skip (pat rep : Str) :
    ∀ (l : Str) (k : Nat), replaceGo pat rep l k = replaceGo pat rep (l.drop k) 0 := by
  intro l
  induction l with
  | nil => intro k; simp [replaceGo]
  | cons c rest ih =>
    intro k
    cases k with
    | zero => rfl
    | succ k =>
      simp only [replaceGo, List.drop_succ_cons]
      exact ih k

theorem replaceGo_of_none (pat rep : Str) :
    ∀ s : Str, findSep pat s = none → replaceGo pat rep s 0 = s := by
  intro s
  induction s with
  | nil => intro _; rfl
  | cons c rest ih =>
    intro h
    simp only [findSep] at h
    by_cases hp : pat.isPrefixOf (c :: rest)
    · rw [if_pos hp] at h; cases h
    · rw [if_neg hp] at h
      cases hf : findSep pat rest with
      | none =>
        simp only [replaceGo, if_neg hp]
        rw [ih hf]
      | some pr => rw [hf] at h; cases h

theorem replaceGo_of_some (pat rep : Str) (hp : pat ≠ []) :
    ∀ (s pre post : Str), findSep pat s = some (pre, post) →
      replaceGo pat rep s 0 = pre ++ rep ++ replaceGo pat rep post 0 := by
  intro s
  induction s with
  | nil => intro pre post h; simp [findSep] at h
  | cons c rest ih =>
    intro pre post h
    simp only [findSep] at h
    by_cases hpre : pat.isPrefixOf (c :: rest)
    · rw [if_pos hpre] at h
      injection h with h
      rw [Prod.mk.injEq] at h
      obtain ⟨h1, h2⟩ := h
      subst h1
      subst h2
      obtain ⟨p0, pats, rfl⟩ : ∃ p0 pats, pat = p0 :: pats := by
        cases pat with
        | nil => exact absurd rfl hp
        | cons a b => exact ⟨a, b, rfl⟩
      simp only [replaceGo, if_pos hpre, List.length_cons, Nat.add_sub_cancel,
        List.nil_append, List.drop_succ_cons]
      rw [replaceGo_skip]
    · rw [if_neg hpre] at h
      cases hf : findSep pat rest with
      | none => rw [hf] at h; cases h
      | some pr =>
        obtain ⟨pre', post'⟩ := pr
        rw [hf] at h
        injection h with h
        rw [Prod.mk.injEq] at h
        obtain ⟨h1, h2⟩ := h
        subst h1
        subst h2
        simp only [replaceGo, if_neg hpre]
        rw [ih pre' post' hf]
        simp

theorem jsReplaceAll_rec (pat rep s : Str) (hp : pat ≠ []) :
    jsReplaceAll s pat rep =
      match findSep pat s with
      | none => s
      | some pr => pr.1 ++ rep ++ jsReplaceAll pr.2 pat rep := by
  have hpe : pat.isEmpty = false := by simp [List.isEmpty_iff, hp]
  cases hf : findSep pat s with
  | none => simp [jsReplaceAll, hpe, replaceGo_of_none pat rep s hf]
  | some pr =>
    obtain ⟨pre, post⟩ := pr
    simp [jsReplaceAll, hpe, replaceGo_of_some pat rep hp s pre post hf]

theorem auditScanF_of_le (fuel : Nat) :
    ∀ (l : Str) (k : Nat), l.length ≤ k → auditScanF fuel l k = [] := by
  induction fuel with
  | zero => intro l k _; rfl
  | succ fuel ih =>
    intro l k h
    cases l with
    | nil => rfl
    | cons c rest =>
      cases k with
      | zero => simp at h
      | succ k =>
        simp only [auditScanF]
        exact ih rest k (by simpa using h)

theorem auditScanF_sound (fuel : Nat) :
    ∀ (l : Str) (k : Nat) (t : Str), t ∈ auditScanF fuel l k →
      (∀ c ∈ t, notHyphenNL c = true) ∧ txtList <:+ t := by
  induction fuel with
  | zero => intro l k t h; simp [auditScanF] at h
  | succ fuel ih =>
    intro l k t h
    cases l with
    | nil => simp [auditScanF] at h
    | cons c rest =>
      cases k with
      | succ k =>
        simp only [auditScanF] at h
        exact ih rest k t h
      | zero =>
        simp only [auditScanF] at h
        split at h
        · rename_i c0 rest0 rest2
          split at h
          · rename_i x i hfind
            rcases List.mem_cons.mp h with rfl | h
            · constructor
              · intro ch hch
                exact List.mem_takeWhile_imp (List.mem_of_mem_take hch)
              · unfold findTxtEnd at hfind
                have hpred := List.find?_some hfind
                exact (of_decide_eq_true hpred).2
            · exact ih rest2 i t h
          · exact ih _ 0 t h
        · exact ih rest 0 t h

theorem truthy_some (o : Option Str) (h : truthy o = true) :
    ∃ s, o = some s ∧ s ≠ [] := by
  cases o with
  | none => simp [truthy] at h
  | some s =>
    refine ⟨s, rfl, ?_⟩
    simpa [truthy, List.isEmpty_iff] using h

theorem processCitations_of_truthy (d : ResponseData) (gc : Str)
    (hg : d.graphContext = some gc) (hne : gc ≠ []) :
    processCitations d =
      (applyCitationsFrom 1 (contextDocs gc) d.response,
       citationList (contextDocs gc)) := by
  have ht : truthy (some gc) = true := by
    simp [truthy, List.isEmpty_iff, hne]
  simp [processCitations, hg, ht]

theorem findTxtEnd_full (run : Str) (h5 : 5 ≤ run.length) (hs : txtList <:+ run) :
    findTxtEnd run = some run.length := by
  unfold findTxtEnd
  rw [List.range_succ, List.reverse_append]
  simp only [List.reverse_cons, List.reverse_nil, List.nil_append, List.singleton_append]
  apply List.find?_cons_of_pos
  rw [List.take_length]
  exact decide_eq_true ⟨h5, hs⟩

theorem auditScanF_match_step (fuel : Nat) (rest2 : Str) (i : Nat)
    (hrun : rest2.takeWhile notHyphenNL = rest2)
    (hfind : findTxtEnd rest2 = some i) :
    auditScanF (fuel + 1) ('-' :: ' ' :: rest2) 0 =
      rest2.take i :: auditScanF fuel rest2 i := by
  simp only [auditScanF, hrun, hfind]

/-- C1: every citation marker inserted into the answer refers to a document of
the context used for that answer: each reference entry produced by
`processCitations` carries a title that is one of the distinct document titles
extracted from the graph context of the same response, and that title occurs
verbatim inside that graph context.  Hence no marker references a document
absent from the context, and the rendered reference list contains only such
documents. -/
theorem markers_refer_to_context_documents (d : ResponseData) (i : Nat) (t : Str)
    (h : (i, t) ∈ (processCitations d).2) :
    ∃ gc, d.graphContext = some gc ∧ t ∈ contextDocs gc ∧ t <:+: gc := by
  by_cases ht : truthy d.graphContext = true
  · obtain ⟨gc, hg, hne⟩ := truthy_some _ ht
    rw [processCitations_of_truthy d gc hg hne] at h
    have hmem : t ∈ contextDocs gc := citationListFrom_snd_mem (contextDocs gc) 1 (i, t) h
    exact ⟨gc, hg, hmem, contextDocs_within gc t hmem⟩
  · have ht' : truthy d.graphContext = false := Bool.eq_false_iff.mpr ht
    simp [processCitations, ht'] at h

def c1data : ResponseData :=
  { response := "see a.txt".toList, error := none,
    technical_details := some ⟨some ⟨some "x Found in: a.txt".toList, none⟩⟩ }

/-- Witness for C1 at a concrete response carrying one context document. -/
theorem markers_refer_to_context_documents_witness :
    (1, "a.txt".toList) ∈ (processCitations c1data).2 ∧
    ∃ gc, c1data.graphContext = some gc ∧ "a.txt".toList ∈ contextDocs gc ∧
      "a.txt".toList <:+: gc :=
  ⟨by decide, markers_refer_to_context_documents c1data 1 ("a.txt".toList) (by decide)⟩

def c2data : ResponseData :=
  { response := "alpha beta".toList, error := none,
    technical_details :=
      some ⟨some ⟨some "Found in: beta\nFound in: alpha beta".toList, none⟩⟩ }

/-- C2 counterexample: the claim that every literal occurrence of a cited
document's title in the answer text is replaced by its marker fails.  With
answer text `alpha beta` and context documents `beta` (marker 1) and
`alpha beta` (marker 2), the sequential substitution first rewrites `beta`
to `[1]`, destroying the literal occurrence of `alpha beta`; the processed
text is `alpha [1]` and contains no `[2]`, although `alpha beta` is a cited
document whose title occurs literally in the answer text. -/
theorem citation_substitution_counterexample :
    (2, "alpha beta".toList) ∈ (processCitations c2data).2 ∧
    "alpha beta".toList <:+: c2data.response ∧
    (processCitations c2data).1 = "alpha [1]".toList ∧
    ¬ "[2]".toList <:+: (processCitations c2data).1 := by decide

/-- C2 (amended): for every successful response with a non-empty graph
context, citation markers are unique and assigned consecutively starting at 1
in first-appearance order of the distinct documents of the context, and the
answer text is processed by sequentially replacing, for each document in that
order, every left-to-right non-overlapping occurrence of its title in the
current (partially substituted) text with its marker; an occurrence consumed
by an earlier substitution is not separately replaced. -/
theorem citation_markers_consecutive (d : ResponseData)
    (h : truthy d.graphContext = true) :
    ((processCitations d).2.map Prod.fst =
      List.range' 1 (contextDocs (d.graphContext.getD [])).length) ∧
    ((processCitations d).2.map Prod.fst).Nodup ∧
    ((processCitations d).2.map Prod.snd = contextDocs (d.graphContext.getD [])) ∧
    (contextDocs (d.graphContext.getD [])).Nodup ∧
    ((processCitations d).1 =
      applyCitationsFrom 1 (contextDocs (d.graphContext.getD [])) d.response) ∧
    (∀ pat rep s : Str, pat ≠ [] →
      jsReplaceAll s pat rep =
        match findSep pat s with
        | none => s
        | some pr => pr.1 ++ rep ++ jsReplaceAll pr.2 pat rep) := by
  obtain ⟨gc, hg, hne⟩ := truthy_some _ h
  rw [processCitations_of_truthy d gc hg hne]
  rw [hg]
  refine ⟨?_, ?_, ?_, ?_, rfl, fun pat rep s hp => jsReplaceAll_rec pat rep s hp⟩
  · simpa [citationList] using citationListFrom_map_fst (contextDocs gc) 1
  · rw [show ((citationList (contextDocs gc)).map Prod.fst) =
      List.range' 1 (contextDocs gc).length from
        citationListFrom_map_fst (contextDocs gc) 1]
    exact List.nodup_range' 1 _ 1 one_pos
  · simpa [citationList] using citationListFrom_map_snd (contextDocs gc) 1
  · exact dedupeFirst_nodup _

/-- Witness for the amended C2 at the same concrete response. -/
theorem citation_markers_consecutive_witness :
    truthy c2data.graphContext = true ∧
    (processCitations c2data).2.map Prod.fst =
      List.range' 1 (contextDocs (c2data.graphContext.getD [])).length :=
  ⟨by decide, (citation_markers_consecutive c2data (by decide)).1⟩

def c3data : ResponseData :=
  { response := "hello".toList, error := none,
    technical_details := some ⟨some ⟨some "Found in: foo.txt".toList, none⟩⟩ }

/-- C3 counterexample: the claim that a document present in the context but
not used (mentioned) by the drafted answer receives no marker index and is
absent from the citation list fails.  With answer text `hello` and context
document `foo.txt`, the title is never mentioned by the draft, yet the
citation list contains the entry `(1, foo.txt)`. -/
theorem unused_document_cited_counterexample :
    ¬ "foo.txt".toList <:+: c3data.response ∧
    (1, "foo.txt".toList) ∈ (processCitations c3data).2 ∧
    (processCitations c3data).1 = c3data.response := by decide

/-- C3 (amended): a marker index and a citation entry are created for every
distinct document of the context, whether or not the drafted answer mentions
its title: the citation list is exactly the indexed list of all distinct
context documents, independent of the answer text.  An unused document's
marker simply never occurs inline. -/
theorem citations_cover_all_context_documents (d : ResponseData)
    (h : truthy d.graphContext = true) :
    (processCitations d).2 = citationList (contextDocs (d.graphContext.getD [])) ∧
    ∀ t ∈ contextDocs (d.graphContext.getD []),
      ∃ j, (j, t) ∈ (processCitations d).2 := by
  obtain ⟨gc, hg, hne⟩ := truthy_some _ h
  rw [processCitations_of_truthy d gc hg hne, hg]
  exact ⟨rfl, fun t ht => citationListFrom_mem_of (contextDocs gc) 1 t ht⟩

/-- Witness for the amended C3: the unmentioned context document still
receives entry `(1, foo.txt)`. -/
theorem citations_cover_all_context_documents_witness :
    truthy c3data.graphContext = true ∧
    (processCitations c3data).2 =
      citationList (contextDocs (c3data.graphContext.getD [])) :=
  ⟨by decide, (citations_cover_all_context_documents c3data (by decide)).1⟩

/-- C4: citation substitution is deterministic.  The processed answer text,
the marker indices and the reference-list order computed by
`processCitations` depend only on the answer text and the graph context: two
responses agreeing on `response` and on the `graph_context` chain produce
identical results, whatever their other fields. -/
theorem citation_processing_deterministic (d1 d2 : ResponseData)
    (hr : d1.response = d2.response) (hg : d1.graphContext = d2.graphContext) :
    processCitations d1 = processCitations d2 := by
  unfold processCitations
  rw [hr, hg]

def c4dataA : ResponseData :=
  { response := "r mentions a.txt".toList, error := none,
    technical_details := some ⟨some ⟨some "Found in: a.txt".toList, none⟩⟩ }

def c4dataB : ResponseData :=
  { response := "r mentions a.txt".toList, error := some "".toList,
    technical_details := some ⟨some ⟨some "Found in: a.txt".toList,
      some ⟨some ⟨some "noun".toList, some "verb".toList⟩⟩⟩⟩ }

/-- Witness for C4: two responses differing in `error` and `semantic_data`
but agreeing on answer text and graph context process identically. -/
theorem citation_processing_deterministic_witness :
    c4dataA.response = c4dataB.response ∧
    c4dataA.graphContext = c4dataB.graphContext ∧
    processCitations c4dataA = processCitations c4dataB :=
  ⟨by decide, by decide,
    citation_processing_deterministic c4dataA c4dataB (by decide) (by decide)⟩

/-- C5: for every submitted non-empty question, exactly one audit entry is
appended, whether the query succeeds or fails at any stage: the success path
appends one resource entry via `updateAuditTrail` and every failure path
(rejected fetch, HTTP error status, truthy `error` field — including a
synthesis failure surfaced that way) appends one error entry; never zero and
never more than one. -/
theorem one_audit_entry_per_query (st : UIState) (r : ServerResult)
    (h : jsTrim st.inputValue ≠ []) :
    (submitQuery st r).auditTrail.length = st.auditTrail.length + 1 := by
  have he : (jsTrim st.inputValue).isEmpty = false := by
    simp [List.isEmpty_iff, h]
  cases r with
  | fetchFailed msg => simp [submitQuery, he, errorPath]
  | httpError status => simp [submitQuery, he, errorPath]
  | ok d =>
    by_cases hd : truthy d.error = true
    · simp [submitQuery, he, hd, errorPath]
    · simp [submitQuery, he, Bool.eq_false_iff.mpr hd, errorPath, updateAuditTrail]

def c5state : UIState :=
  { inputValue := "Who won?".toList, chatHistory := [],
    cypherQueries := CypherDisplay.empty, auditTrail := [], requestsSent := [] }

/-- Witness for C5: a failed query still appends exactly one audit entry. -/
theorem one_audit_entry_per_query_witness :
    jsTrim c5state.inputValue ≠ [] ∧
    (submitQuery c5state
      (ServerResult.fetchFailed "SynthesisUnavailable".toList)).auditTrail.length =
      c5state.auditTrail.length + 1 :=
  ⟨by decide, one_audit_entry_per_query c5state
    (ServerResult.fetchFailed "SynthesisUnavailable".toList) (by decide)⟩

/-- C6: the audit log is append-only.  `updateAuditTrail` appends one entry
and leaves the prior entries as a prefix, and every outcome of `submitQuery`
(success, every failure path, and the empty-input no-op) leaves the previous
audit trail as a prefix of the new one; no entry is updated or deleted. -/
theorem audit_log_append_only (q : Str) (d : ResponseData)
    (trail : List AuditEntry) (st : UIState) (r : ServerResult) :
    trail <+: updateAuditTrail q d trail ∧
    st.auditTrail <+: (submitQuery st r).auditTrail := by
  refine ⟨⟨_, rfl⟩, ?_⟩
  by_cases he : (jsTrim st.inputValue).isEmpty = true
  · simp [submitQuery, he]
  · have he' : (jsTrim st.inputValue).isEmpty = false := Bool.eq_false_iff.mpr he
    cases r with
    | fetchFailed msg =>
      exact ⟨[AuditEntry.error (jsTrim st.inputValue) msg],
        by simp [submitQuery, he', errorPath]⟩
    | httpError status =>
      exact ⟨[AuditEntry.error (jsTrim st.inputValue)
          ("HTTP error! status: ".toList ++ (toString status).toList)],
        by simp [submitQuery, he', errorPath]⟩
    | ok d2 =>
      by_cases hd : truthy d2.error = true
      · exact ⟨[AuditEntry.error (jsTrim st.inputValue) (d2.error.getD [])],
          by simp [submitQuery, he', hd, errorPath]⟩
      · exact ⟨[AuditEntry.resource (jsTrim st.inputValue)
            (auditDocsOf (d2.graphContext.getD [])) d2.semanticData],
          by simp [submitQuery, he', Bool.eq_false_iff.mpr hd, errorPath,
            updateAuditTrail]⟩

def c7state : UIState :=
  { inputValue := "   ".toList, chatHistory := [],
    cypherQueries := CypherDisplay.empty, auditTrail := [], requestsSent := [] }

/-- C7 counterexample: the claim that a whitespace-only question fails with
`EmptyQuestion` and prompts the user to re-enter is false.  On the input
`"   "` the handler returns with the state completely unchanged: starting
from an empty chat and audit trail, no error message, prompt, or entry of any
kind is produced. -/
theorem empty_question_counterexample :
    submitQuery c7state (ServerResult.fetchFailed []) = c7state ∧
    c7state.chatHistory = [] ∧ c7state.auditTrail = [] := by decide

/-- C7 (amended): a question that is empty or whitespace-only after trimming
is silently ignored: `submitQuery` returns the state unchanged, so no request
is sent, no answer is produced, and no chat message, audit entry, or
`EmptyQuestion` error is surfaced. -/
theorem empty_question_silently_ignored (st : UIState) (r : ServerResult)
    (h : jsTrim st.inputValue = []) : submitQuery st r = st := by
  simp [submitQuery, h]

/-- Witness for the amended C7 on a whitespace-and-newline input. -/
theorem empty_question_silently_ignored_witness :
    jsTrim " \n  ".toList = [] ∧
    submitQuery { c7state with inputValue := " \n  ".toList }
      (ServerResult.httpError 500) = { c7state with inputValue := " \n  ".toList } :=
  ⟨by decide, empty_question_silently_ignored
    { c7state with inputValue := " \n  ".toList } (ServerResult.httpError 500) (by decide)⟩

/-- C8: the caller receives either a well-formed answer or a single
structured error, never both.  When the response carries a truthy `error`
field the chat gains only the user echo and one error message, the bot answer
and its trace (citations, query display) are not rendered, and the
`cypherQueries` region is untouched; the same holds for HTTP errors and
rejected fetches.  On success the chat gains the user echo and exactly one
bot answer, with no error message. -/
theorem single_outcome_per_query (st : UIState) (r : ServerResult)
    (h : jsTrim st.inputValue ≠ []) :
    (∀ d, r = ServerResult.ok d → truthy d.error = true →
      (submitQuery st r).chatHistory = st.chatHistory ++
        [ChatMsg.user (jsTrim st.inputValue), ChatMsg.error (d.error.getD [])] ∧
      (submitQuery st r).cypherQueries = st.cypherQueries) ∧
    (∀ d, r = ServerResult.ok d → truthy d.error = false →
      (submitQuery st r).chatHistory = st.chatHistory ++
        [ChatMsg.user (jsTrim st.inputValue),
          ChatMsg.bot (processCitations d).1 (processCitations d).2]) ∧
    (∀ status, r = ServerResult.httpError status →
      (submitQuery st r).chatHistory = st.chatHistory ++
        [ChatMsg.user (jsTrim st.inputValue),
          ChatMsg.error ("HTTP error! status: ".toList ++ (toString status).toList)] ∧
      (submitQuery st r).cypherQueries = st.cypherQueries) ∧
    (∀ msg, r = ServerResult.fetchFailed msg →
      (submitQuery st r).chatHistory = st.chatHistory ++
        [ChatMsg.user (jsTrim st.inputValue), ChatMsg.error msg] ∧
      (submitQuery st r).cypherQueries = st.cypherQueries) := by
  have he : (jsTrim st.inputValue).isEmpty = false := by
    simp [List.isEmpty_iff, h]
  refine ⟨?_, ?_, ?_, ?_⟩
  · rintro d rfl hd
    constructor <;> simp [submitQuery, he, hd, errorPath]
  · rintro d rfl hd
    simp [submitQuery, he, hd, errorPath]
  · rintro status rfl
    constructor <;> simp [submitQuery, he, errorPath]
  · rintro msg rfl
    constructor <;> simp [submitQuery, he, errorPath]

def c8state : UIState :=
  { inputValue := "q".toList, chatHistory := [],
    cypherQueries := CypherDisplay.empty, auditTrail := [], requestsSent := [] }

def c8data : ResponseData :=
  { response := [], error := some "Failed to process query".toList,
    technical_details := none }

/-- Witness for C8: an error response surfaces only the error message and
leaves the query display untouched. -/
theorem single_outcome_per_query_witness :
    (submitQuery c8state (ServerResult.ok c8data)).chatHistory =
      c8state.chatHistory ++ [ChatMsg.user (jsTrim c8state.inputValue),
        ChatMsg.error (c8data.error.getD [])] ∧
    (submitQuery c8state (ServerResult.ok c8data)).cypherQueries =
      c8state.cypherQueries :=
  (single_outcome_per_query c8state (ServerResult.ok c8data) (by decide)).1
    c8data rfl (by decide)

/-- C9: when the context for a query is empty, the answer is the fixed
insufficient-information message with an empty citation sequence (the
synthesizer side is modelled from the spec, the synthesizer itself not being
among the sources), and on the rendering side a response whose
`graph_context` is absent or empty passes through `processCitations`
untouched: no markers are inserted and the reference list is empty so no
reference block is shown. -/
theorem empty_context_insufficient_info (complete : Str → Str) (question : Str)
    (d : ResponseData) (h : truthy d.graphContext = false) :
    synthesize complete question [] =
      { text := insufficientInfoMessage, citations := [] } ∧
    processCitations d = (d.response, []) := by
  constructor
  · simp [synthesize]
  · simp [processCitations, h]

def c9data : ResponseData :=
  { response := "anything".toList, error := none,
    technical_details := some ⟨some ⟨some [], none⟩⟩ }

/-- Witness for C9 on the spec's empty-context scenario and on a response
with an empty graph context. -/
theorem empty_context_insufficient_info_witness :
    truthy c9data.graphContext = false ∧
    synthesize (fun _ => []) "Who won?".toList [] =
      { text := insufficientInfoMessage, citations := [] } ∧
    processCitations c9data = (c9data.response, []) :=
  ⟨by decide, empty_context_insufficient_info (fun _ => []) "Who won?".toList
    c9data (by decide)⟩

/-- C10: the audit trail's referenced-documents list is sound for the
line-163 pattern: every title it contains consists solely of characters that
are neither a hyphen nor a newline and ends in `.txt` — so a document whose
title contains a hyphen or does not end in `.txt` never appears in the list,
even when that document is part of the context; and conversely a context of
the exact shape hyphen, space, `<name>.txt` with a hyphen- and newline-free
non-empty `<name>` yields exactly that title. -/
theorem audit_docs_pattern (gc name : Str) :
    (∀ t ∈ auditDocsOf gc, (∀ c ∈ t, c ≠ '-' ∧ c ≠ '\n') ∧ txtList <:+ t) ∧
    (name ≠ [] → (∀ c ∈ name, c ≠ '-' ∧ c ≠ '\n') →
      auditDocsOf ('-' :: ' ' :: (name ++ txtList)) = [name ++ txtList]) := by
  constructor
  · intro t ht
    obtain ⟨h1, h2⟩ := auditScanF_sound _ _ _ t ht
    refine ⟨?_, h2⟩
    intro c hc
    have hb := h1 c hc
    simpa [notHyphenNL] using hb
  · intro hne hch
    have hrun : (name ++ txtList).takeWhile notHyphenNL = name ++ txtList := by
      apply List.takeWhile_eq_self_iff.mpr
      intro c hc
      rcases List.mem_append.mp hc with hcn | hct
      · have := hch c hcn
        simp [notHyphenNL, this.1, this.2]
      · fin_cases hct <;> decide
    have h5 : 5 ≤ (name ++ txtList).length := by
      have h1 : 1 ≤ name.length := List.length_pos.mpr hne
      have h4 : txtList.length = 4 := by decide
      simp only [List.length_append, h4]
      omega
    have hfind : findTxtEnd (name ++ txtList) = some (name ++ txtList).length :=
      findTxtEnd_full (name ++ txtList) h5 ⟨name, rfl⟩
    have hflen : ('-' :: ' ' :: (name ++ txtList)).length + 1 =
        ((name ++ txtList).length + 2) + 1 := by simp
    unfold auditDocsOf
    rw [hflen, auditScanF_match_step ((name ++ txtList).length + 2)
      (name ++ txtList) (name ++ txtList).length hrun hfind,
      List.take_length, auditScanF_of_le _ _ _ (le_refl _)]

/-- Witness for C10: a conforming title is extracted; the scan at a concrete
context containing a hyphenated title omits it (checked via the soundness
half applied at `notes.txt`). -/
theorem audit_docs_pattern_witness :
    auditDocsOf ('-' :: ' ' :: ("notes".toList ++ txtList)) =
      ["notes".toList ++ txtList] :=
  (audit_docs_pattern [] "notes".toList).2 (by decide) (by decide)

end BeachBook
